import Mathlib

/-!
# Verification of the searchmind retrieval core

Shallow embedding of `backend/app/core/vector_store.py`,
`backend/app/core/reranker.py`, `backend/app/services/search_service.py`
and `backend/app/services/resource_service.py`, together with proofs of
the testable properties of the design.

Vectors are modelled as lists of rationals; similarity scores are the
inner products computed by the flat inner-product index.  Floating-point
rounding is not modelled.  `faiss.normalize_L2` divides a vector by its
Euclidean norm, which is not representable over `ℚ`; it is threaded
through the development as an opaque per-vector map `normalize`, which
is sound because no claim proved here depends on the numeric values of
the stored vectors.  The embedding model and the cross-encoder are
external capabilities and appear as opaque scoring functions, exactly as
the design document treats them.
-/

namespace Searchmind

/-- A vector is a list of rational coordinates. -/
abbrev Vec := List ℚ

/-- Inner product of two vectors (the similarity score of the flat
inner-product index). -/
def dot (u v : Vec) : ℚ := (List.zipWith (· * ·) u v).sum

/-- One metadata entry of the parallel metadata array
(`VectorStore.metadata_store`).  The Python code stores dictionaries;
ingestion (`upload_service.process_upload`) always populates exactly
these keys, and every read uses `.get` with the defaults modelled here. -/
structure Metadata where
  chunk_id : String
  resource_id : String
  file_name : String
  page_number : Nat
  text : String
  uploaded_at : String
  deleted : Bool
deriving Repr, DecidableEq

/-- State of `VectorStore`: the FAISS flat index (a sequence of vectors)
and the parallel metadata array.  The index path and dimension play no
role in the verified operations. -/
structure VectorStore where
  index : List Vec
  metadata_store : List Metadata
deriving Repr, DecidableEq

/-! ## A stable descending sort

Python's `sorted(_, key=..., reverse=True)` is a stable sort placing
larger keys first; FAISS's exact flat search likewise returns results by
descending score.  Both are modelled by a stable insertion sort by a
rational key: an element is inserted after every element with a strictly
larger key and before the first element whose key is not larger, so
elements with equal keys keep their original relative order. -/

/-- Insert `a` into `l` before the first element whose key is not
strictly larger than `a`'s key. -/
def insKey (key : α → ℚ) (a : α) : List α → List α
  | [] => [a]
  | b :: bs => if key a < key b then b :: insKey key a bs else a :: b :: bs

/-- Stable descending sort by a rational key. -/
def sortDescBy (key : α → ℚ) (l : List α) : List α :=
  l.foldr (insKey key) []

/-! ## VectorStore operations (`backend/app/core/vector_store.py`) -/

/-- Exact top-`k` search of the flat inner-product index over the given
score list.  Modelled from the spec: FAISS's `IndexFlatIP.search` is an
external library call; the design document specifies that it returns the
`k` best positions by descending score with a deterministic tie-break,
stable by insertion order (lower position wins). -/
def faissTopK (scores : List ℚ) (k : Nat) : List (Nat × ℚ) :=
  (sortDescBy Prod.snd scores.enum).take k

/-- The result-combination step of the search loop, for one returned
position/score pair: look the position up in the metadata store (the
`idx < len(metadata_store)` safety check) and skip deleted entries. -/
def searchHit (metadata_store : List Metadata) (p : Nat × ℚ) :
    Option (Metadata × ℚ) :=
  match metadata_store[p.1]? with
  | some metadata =>
      if metadata.deleted then none else some (metadata, p.2)
  | none => none

/-- `VectorStore.search`: empty-index short-circuit, clamp `k` to the
number of stored vectors, exact top-`k` by inner product, then combine
with metadata, dropping positions out of metadata range (the safety
check) and entries marked deleted. -/
def VectorStore.search (normalize : Vec → Vec) (s : VectorStore)
    (query_embedding : Vec) (k : Nat) : List (Metadata × ℚ) :=
  if s.index.length = 0 then []
  else
    let q := normalize query_embedding
    let scores := s.index.map (fun v => dot v q)
    let k' := min k s.index.length
    (faissTopK scores k').filterMap (searchHit s.metadata_store)

/-- `VectorStore.add_documents`: reject mismatched lengths, normalize the
embeddings, append them to the index and the metadata to the parallel
array. -/
def VectorStore.add_documents (normalize : Vec → Vec) (s : VectorStore)
    (embeddings : List Vec) (metadatas : List Metadata) :
    Except String VectorStore :=
  if embeddings.length ≠ metadatas.length then
    .error "Number of embeddings must match number of metadata entries"
  else
    .ok { index := s.index ++ embeddings.map normalize,
          metadata_store := s.metadata_store ++ metadatas }

/-- The pair of persisted artifacts (`index.faiss`, `metadata.pkl`).
Serialization itself is lossless, so each artifact is modelled by the
value it encodes. -/
structure SavedIndex where
  index_file : List Vec
  metadata_file : List Metadata
deriving Repr, DecidableEq

/-- `VectorStore.save`: write both artifacts. -/
def VectorStore.save (s : VectorStore) : SavedIndex :=
  { index_file := s.index, metadata_file := s.metadata_store }

/-- `VectorStore.load`: fail when the artifacts are absent, otherwise
restore both parallel structures. -/
def VectorStore.load (artifacts : Option SavedIndex) :
    Except String VectorStore :=
  match artifacts with
  | none => .error "Index files not found"
  | some a => .ok { index := a.index_file, metadata_store := a.metadata_file }

/-- `VectorStore.delete_resource`: flip `deleted` on every live entry of
the resource and return how many entries were newly flipped (the loop
counts exactly the entries that satisfied the flip condition in the
pre-call state). -/
def VectorStore.delete_resource (s : VectorStore) (resource_id : String) :
    VectorStore × Nat :=
  let deleted_count := (s.metadata_store.filter
    (fun m => m.resource_id == resource_id && !m.deleted)).length
  let ms := s.metadata_store.map
    (fun m => if m.resource_id == resource_id && !m.deleted then
      { m with deleted := true } else m)
  ({ s with metadata_store := ms }, deleted_count)

/-- One row of `VectorStore.get_all_resources`. -/
structure ResourceSummary where
  resource_id : String
  filename : String
  num_chunks : Nat
  uploaded_at : String
deriving Repr, DecidableEq

/-- One step of the grouping loop of `get_all_resources`: the Python
dictionary keyed by `resource_id` (insertion-ordered) is an association
list; a first occurrence appends a summary with count 1 taking
`filename`/`uploaded_at` from that chunk, a repeat occurrence only
increments the count. -/
def addChunkSummary (acc : List ResourceSummary) (m : Metadata) :
    List ResourceSummary :=
  if acc.any (fun r => r.resource_id == m.resource_id) then
    acc.map (fun r => if r.resource_id == m.resource_id then
      { r with num_chunks := r.num_chunks + 1 } else r)
  else
    acc ++ [{ resource_id := m.resource_id, filename := m.file_name,
              num_chunks := 1, uploaded_at := m.uploaded_at }]

/-- `VectorStore.get_all_resources`: group live chunks by `resource_id`,
skipping deleted entries and entries with a falsy (empty) resource id. -/
def VectorStore.get_all_resources (s : VectorStore) : List ResourceSummary :=
  s.metadata_store.foldl
    (fun acc m =>
      if m.deleted || m.resource_id == "" then acc else addChunkSummary acc m)
    []

/-! ## Reranker (`backend/app/core/reranker.py`)

The cross-encoder `self.model.predict` is an external capability; it is
passed in as an opaque function `predict` from query/text pairs to raw
scores (one score per pair, by the model's contract). -/

/-- A document record handed to the reranker: `text`, `metadata`,
`vector_score`, plus the `rerank_score` slot the reranker fills in
(Python adds the key to the dict; the model carries it as a field). -/
structure Doc where
  text : String
  metadata : Metadata
  vector_score : ℚ
  rerank_score : ℚ
deriving Repr, DecidableEq

/-- `scores.min()` of a non-empty score array (0 for the empty array,
which the reranker never produces). -/
def listMin : List ℚ → ℚ
  | [] => 0
  | a :: l => l.foldl min a

/-- `scores.max()` of a non-empty score array. -/
def listMax : List ℚ → ℚ
  | [] => 0
  | a :: l => l.foldl max a

/-- Min-max normalization of one raw score over a batch of `n`
documents: `(score - min) / (max - min)` when the range is positive,
otherwise `1.0` for a single document and `0.5` for several. -/
def normalizedScore (scores : List ℚ) (n : Nat) (sc : ℚ) : ℚ :=
  let min_score := listMin scores
  let max_score := listMax scores
  let score_range := max_score - min_score
  if 0 < score_range then (sc - min_score) / score_range
  else if n = 1 then 1 else 1/2

/-- The annotation loop of `rerank`: store the normalized score of each
document in its `rerank_score` field (the Python `zip` pairs documents
with scores positionally). -/
def Reranker.annotate (documents : List Doc) (scores : List ℚ) : List Doc :=
  List.zipWith
    (fun doc sc =>
      { doc with rerank_score := normalizedScore scores documents.length sc })
    documents scores

/-- `Reranker.rerank`: empty short-circuit, score all query/text pairs in
one batch, min-max-normalize, sort descending by `rerank_score` (Python's
`sorted` with `reverse=True` is stable) and truncate to `top_k`. -/
def Reranker.rerank (predict : List (String × String) → List ℚ)
    (query : String) (documents : List Doc) (top_k : Nat) : List Doc :=
  if documents.isEmpty then []
  else
    let pairs := documents.map (fun doc => (query, doc.text))
    let scores := predict pairs
    let annotated := Reranker.annotate documents scores
    let reranked := sortDescBy Doc.rerank_score annotated
    reranked.take top_k

/-! ## SearchService (`backend/app/services/search_service.py`) -/

/-- Response metadata shape (`models/schemas.py: ResultMetadata`). -/
structure ResultMetadata where
  file_name : String
  page_number : Nat
  resource_id : String
  chunk_id : String
deriving Repr, DecidableEq

/-- One search result (`models/schemas.py: SearchResult`). -/
structure SearchResult where
  text : String
  metadata : ResultMetadata
  rerank_score : ℚ
  vector_score : ℚ
deriving Repr, DecidableEq

/-- The search response (`models/schemas.py: SearchResponse`).
`search_time_ms` is wall-clock timing and is not modelled. -/
structure SearchResponse where
  query : String
  results : List SearchResult
  total_found : Nat
  has_more : Bool
  offset : Nat
  limit : Nat
deriving Repr, DecidableEq

/-- The optional filter dictionary: presence of the `"type"` and
`"file_name"` keys. -/
structure Filters where
  ftype : Option String
  file_name : Option String
deriving Repr, DecidableEq

/-- Python's substring test `needle in hay` on strings. -/
def strContains (hay needle : String) : Bool :=
  decide (List.IsInfix needle.toList hay.toList)

/-- The filter predicate of `SearchService._apply_filters` for one
candidate: when the `type` filter is present the last `.`-separated
component of the file name must equal it case-insensitively, and when
the `file_name` filter is present it must be a case-insensitive
substring of the file name. -/
def SearchService.passesFilters (filters : Filters) (metadata : Metadata) :
    Bool :=
  (match filters.ftype with
   | some t => ((metadata.file_name.splitOn ".").getLastD "").toLower == t.toLower
   | none => true) &&
  (match filters.file_name with
   | some sub => strContains metadata.file_name.toLower sub.toLower
   | none => true)

/-- `SearchService._apply_filters`: keep the candidates that pass every
present filter, in order. -/
def SearchService.apply_filters (results : List (Metadata × ℚ))
    (filters : Filters) : List (Metadata × ℚ) :=
  results.filter (fun p => SearchService.passesFilters filters p.1)

/-- Conversion of a recalled `(metadata, vector_score)` pair into the
document dictionary handed to the reranker. -/
def SearchService.mkDoc (p : Metadata × ℚ) : Doc :=
  { text := p.1.text, metadata := p.1, vector_score := p.2, rerank_score := 0 }

/-- Conversion of a reranked document into the response shape. -/
def SearchService.toSearchResult (doc : Doc) : SearchResult :=
  { text := doc.text,
    metadata := { file_name := doc.metadata.file_name,
                  page_number := doc.metadata.page_number,
                  resource_id := doc.metadata.resource_id,
                  chunk_id := doc.metadata.chunk_id },
    rerank_score := doc.rerank_score,
    vector_score := doc.vector_score }

/-- The reranked sequence produced inside `SearchService.search` (empty
when the pipeline short-circuits on an empty post-filter candidate
set): recall `max 50 (offset+limit+10)` candidates, filter, build the
document dictionaries, rerank the top `min(len documents, offset+limit+10)`. -/
def SearchService.rerankedOf (normalize : Vec → Vec)
    (predict : List (String × String) → List ℚ) (s : VectorStore)
    (query : String) (query_embedding : Vec) (filters : Option Filters)
    (offset limit : Nat) : List Doc :=
  let candidates_needed := max 50 (offset + limit + 10)
  let initial_results := VectorStore.search normalize s query_embedding
    candidates_needed
  let initial_results := match filters with
    | some f => SearchService.apply_filters initial_results f
    | none => initial_results
  if initial_results.isEmpty then []
  else
    let documents := initial_results.map SearchService.mkDoc
    let rerank_top_k := min documents.length (offset + limit + 10)
    Reranker.rerank predict query documents rerank_top_k

/-- `SearchService.search`: the two-stage pipeline.  `embed` is the
opaque embedding model (`Embedder.embed_query`), `predict` the opaque
cross-encoder.  The `top_k` request parameter is accepted but, as in the
source, never used (the rerank budget is derived from
`offset + limit + 10`). -/
def SearchService.search (normalize : Vec → Vec)
    (predict : List (String × String) → List ℚ) (embed : String → Vec)
    (s : VectorStore) (query : String) (filters : Option Filters)
    (top_k offset limit : Nat) : SearchResponse :=
  let candidates_needed := max 50 (offset + limit + 10)
  let query_embedding := embed query
  let initial_results := VectorStore.search normalize s query_embedding
    candidates_needed
  let initial_results := match filters with
    | some f => SearchService.apply_filters initial_results f
    | none => initial_results
  if initial_results.isEmpty then
    { query := query, results := [], total_found := 0,
      has_more := false, offset := offset, limit := limit }
  else
    let documents := initial_results.map SearchService.mkDoc
    let rerank_top_k := min documents.length (offset + limit + 10)
    let reranked := Reranker.rerank predict query documents rerank_top_k
    let end_idx := offset + limit
    let paginated_results := (reranked.drop offset).take (end_idx - offset)
    let has_more := decide (end_idx < reranked.length)
    { query := query,
      results := paginated_results.map SearchService.toSearchResult,
      total_found := reranked.length,
      has_more := has_more, offset := offset, limit := limit }

/-! ## ResourceService (`backend/app/services/resource_service.py`)

The upload directory is modelled as the list of file names it contains;
`Path.exists` is membership and `Path.unlink` removes the name.  The
only removal failure representable in this model is absence of the
file, which the source tolerates silently (no `unlink` is attempted). -/

/-- `ResourceService.delete_resource`: soft-delete the chunks, raise
`ValueError` (`.error`) when nothing was newly marked, otherwise remove
the resource's uploaded file — trying `.pdf` then `.docx`, unlinking the
first that exists, silently doing nothing when neither exists — and
return the count. -/
def ResourceService.delete_resource (s : VectorStore) (files : List String)
    (resource_id : String) :
    Except String (VectorStore × List String × Nat) :=
  let r := VectorStore.delete_resource s resource_id
  if r.2 = 0 then .error ("Resource not found: " ++ resource_id)
  else
    let files' :=
      if (resource_id ++ ".pdf") ∈ files then files.erase (resource_id ++ ".pdf")
      else if (resource_id ++ ".docx") ∈ files then
        files.erase (resource_id ++ ".docx")
      else files
    .ok (r.1, files', r.2)

/-! ## Helper definitions used in statements -/

/-- The live (non-deleted) chunks of a resource, in insertion order. -/
def VectorStore.liveChunksOf (s : VectorStore) (resource_id : String) :
    List Metadata :=
  s.metadata_store.filter (fun m => !m.deleted && m.resource_id == resource_id)

/-- Lexicographic comparison of character lists (the order of ISO-8601
timestamp strings). -/
def charListLe : List Char → List Char → Bool
  | [], _ => true
  | _ :: _, [] => false
  | a :: as, b :: bs =>
      if a < b then true else if b < a then false else charListLe as bs

/-- The lexicographically smaller of two strings. -/
def strMinLex (a b : String) : String := if charListLe a.data b.data then a else b

/-- Written from the spec's words, for comparison with the code: the
earliest `uploaded_at` among the live chunks of a resource
(timestamps are ISO-8601 strings, ordered lexicographically). -/
def specEarliestUpload (s : VectorStore) (resource_id : String) :
    Option String :=
  match (VectorStore.liveChunksOf s resource_id).map Metadata.uploaded_at with
  | [] => none
  | a :: l => some (l.foldl strMinLex a)

/-! ## Proofs about the stable sort -/

theorem insKey_perm (key : α → ℚ) (a : α) (l : List α) :
    List.Perm (insKey key a l) (a :: l) := by
  induction l with
  | nil => simp [insKey]
  | cons b bs ih =>
    simp only [insKey]
    split
    · exact (ih.cons b).trans (List.Perm.swap a b bs)
    · exact List.Perm.refl _

theorem sortDescBy_perm (key : α → ℚ) (l : List α) :
    List.Perm (sortDescBy key l) l := by
  induction l with
  | nil => simp [sortDescBy]
  | cons a l ih =>
    exact (insKey_perm key a (sortDescBy key l)).trans (ih.cons a)

theorem mem_insKey {key : α → ℚ} {a x : α} {l : List α} :
    x ∈ insKey key a l ↔ x = a ∨ x ∈ l := by
  rw [(insKey_perm key a l).mem_iff]; simp

/-- Inserting preserves descending sortedness. -/
theorem pairwise_insKey {key : α → ℚ} {a : α} {l : List α}
    (h : l.Pairwise (fun x y => key y ≤ key x)) :
    (insKey key a l).Pairwise (fun x y => key y ≤ key x) := by
  induction l with
  | nil => simp [insKey]
  | cons b bs ih =>
    rcases List.pairwise_cons.mp h with ⟨hb, hbs⟩
    simp only [insKey]
    split
    · rename_i hab
      refine List.pairwise_cons.mpr ⟨?_, ih hbs⟩
      intro y hy
      rcases mem_insKey.mp hy with rfl | hy
      · exact le_of_lt hab
      · exact hb y hy
    · rename_i hab
      refine List.pairwise_cons.mpr ⟨?_, h⟩
      intro y hy
      rcases List.mem_cons.mp hy with rfl | hy
      · exact le_of_not_lt hab
      · exact le_trans (hb y hy) (le_of_not_lt hab)

theorem sortDescBy_sorted (key : α → ℚ) (l : List α) :
    (sortDescBy key l).Pairwise (fun x y => key y ≤ key x) := by
  induction l with
  | nil => simp [sortDescBy]
  | cons a l ih => exact pairwise_insKey ih

theorem sortDescBy_length (key : α → ℚ) (l : List α) :
    (sortDescBy key l).length = l.length :=
  (sortDescBy_perm key l).length_eq

/-- `insKey` splits the list at the insertion point. -/
theorem insKey_eq_takeWhile_dropWhile (key : α → ℚ) (a : α) (l : List α) :
    insKey key a l =
      l.takeWhile (fun b => decide (key a < key b)) ++
        a :: l.dropWhile (fun b => decide (key a < key b)) := by
  induction l with
  | nil => simp [insKey]
  | cons b bs ih =>
    simp only [insKey, List.takeWhile, List.dropWhile]
    by_cases hab : key a < key b
    · simp [hab, ih]
    · simp [hab]

theorem sublist_insKey (key : α → ℚ) (a : α) (l : List α) :
    List.Sublist l (insKey key a l) := by
  induction l with
  | nil => simp [insKey]
  | cons b bs ih =>
    simp only [insKey]
    split
    · exact ih.cons₂ b
    · exact List.sublist_cons_self a (b :: bs)

/-- A chain `c` whose keys never exceed `K` embeds past a prefix all of
whose keys strictly exceed `K`. -/
theorem sublist_drop_of_keys_le {key : α → ℚ} {K : ℚ} {c s₁ s₂ : List α}
    (hc : ∀ x ∈ c, key x ≤ K) (hs₁ : ∀ x ∈ s₁, K < key x)
    (h : List.Sublist c (s₁ ++ s₂)) : List.Sublist c s₂ := by
  induction s₁ with
  | nil => simpa using h
  | cons b s₁ ih =>
    rw [List.cons_append] at h
    cases h with
    | cons _ h => exact ih (fun x hx => hs₁ x (List.mem_cons_of_mem b hx)) h
    | cons₂ _ h =>
      exact absurd (hc b (List.mem_cons_self b _))
        (not_le_of_lt (hs₁ b (List.mem_cons_self b s₁)))

/-- Stability of the insertion step: an already-descending chain through
`a :: s` survives insertion of `a` into `s`. -/
theorem insKey_stable {key : α → ℚ} {a : α} {c s : List α}
    (hc : ∀ x ∈ c, key x ≤ key a) (h : List.Sublist c s) :
    List.Sublist (a :: c) (insKey key a s) := by
  rw [insKey_eq_takeWhile_dropWhile]
  have htake : ∀ x ∈ s.takeWhile (fun b => decide (key a < key b)),
      key a < key x := by
    intro x hx
    simpa using List.mem_takeWhile_imp hx
  have hdrop : List.Sublist c (s.dropWhile (fun b => decide (key a < key b))) := by
    refine sublist_drop_of_keys_le hc htake ?_
    rwa [List.takeWhile_append_dropWhile]
  exact (hdrop.cons₂ a).trans (List.sublist_append_right _ _)

/-- Stability of the sort: any subchain of `l` that is already sorted in
descending key order is a subchain of `sortDescBy key l`.  In particular
elements with equal keys keep their relative order. -/
theorem sortDescBy_stable (key : α → ℚ) {c l : List α}
    (hc : c.Pairwise (fun x y => key y ≤ key x)) (h : List.Sublist c l) :
    List.Sublist c (sortDescBy key l) := by
  induction l generalizing c with
  | nil => simpa [sortDescBy] using h
  | cons a l ih =>
    cases h with
    | cons _ h => exact (ih hc h).trans (sublist_insKey key a _)
    | cons₂ _ h =>
      rcases List.pairwise_cons.mp hc with ⟨ha, hc'⟩
      exact insKey_stable ha (ih hc' h)

/-! ## Soft deletion (claims C6, C10) -/

/-- Counting effect of the soft-delete pass on one metadata list: the
matching-and-deleted entries after the pass are the matching-and-deleted
entries before it plus the matching-and-live entries before it. -/
theorem countDeleted_after_map (rid : String) (ms : List Metadata) :
    ((ms.map (fun m => if m.resource_id == rid && !m.deleted then
        { m with deleted := true } else m)).filter
      (fun m => m.resource_id == rid && m.deleted)).length
    = (ms.filter (fun m => m.resource_id == rid && m.deleted)).length
      + (ms.filter (fun m => m.resource_id == rid && !m.deleted)).length := by
  induction ms with
  | nil => rfl
  | cons m ms ih =>
    by_cases hr : m.resource_id = rid
    · by_cases hd : m.deleted = true
      · simp [List.filter_cons, hr, hd] at ih ⊢
        omega
      · simp [List.filter_cons, hr, hd] at ih ⊢
        omega
    · simp [List.filter_cons, hr] at ih ⊢
      omega

/-- C6: `delete_resource` marks every entry of the resource as deleted,
returns the count of entries newly marked (the growth of the
matching-and-deleted population), and a second call on the same resource
returns 0 — so two consecutive calls return `(n, 0)`, never `(n, n)`
with `n > 0`. -/
theorem delete_resource_marks_and_idempotent (s : VectorStore)
    (resource_id : String) :
    (∀ m' ∈ (VectorStore.delete_resource s resource_id).1.metadata_store,
        m'.resource_id = resource_id → m'.deleted = true) ∧
    ((VectorStore.delete_resource s resource_id).1.metadata_store.filter
        (fun m => m.resource_id == resource_id && m.deleted)).length
      = (s.metadata_store.filter
          (fun m => m.resource_id == resource_id && m.deleted)).length
        + (VectorStore.delete_resource s resource_id).2 ∧
    (VectorStore.delete_resource
        (VectorStore.delete_resource s resource_id).1 resource_id).2 = 0 := by
  refine ⟨?_, ?_, ?_⟩
  · intro m' hm' hrid
    simp only [VectorStore.delete_resource, List.mem_map] at hm'
    obtain ⟨m, _, rfl⟩ := hm'
    by_cases hr : m.resource_id = resource_id
    · by_cases hd : m.deleted = true
      · simp [hr, hd]
      · simp [hr, hd]
    · rw [if_neg (by simp [hr])] at hrid ⊢
      exact absurd hrid hr
  · exact countDeleted_after_map resource_id s.metadata_store
  · simp only [VectorStore.delete_resource, List.length_eq_zero,
      List.filter_eq_nil_iff]
    intro m' hm'
    simp only [List.mem_map] at hm'
    obtain ⟨m, _, rfl⟩ := hm'
    by_cases hr : m.resource_id = resource_id
    · by_cases hd : m.deleted = true
      · simp [hr, hd]
      · simp [hr, hd]
    · simp [hr]

/-- C10 (frame property of `delete_resource`): the vector storage, the
number and order of metadata entries, and every metadata field other
than `deleted` are untouched; `deleted` becomes
`old.deleted || old.resource_id == resource_id`, so the only mutation is
flipping `deleted` from false to true on matching entries; any entry
that is not a live entry of the resource is returned unchanged. -/
theorem delete_resource_frame (s : VectorStore) (resource_id : String) :
    (VectorStore.delete_resource s resource_id).1.index = s.index ∧
    (VectorStore.delete_resource s resource_id).1.metadata_store.length
      = s.metadata_store.length ∧
    (∀ i : Nat,
      (((VectorStore.delete_resource s resource_id).1.metadata_store[i]?).map
          Metadata.chunk_id = (s.metadata_store[i]?).map Metadata.chunk_id) ∧
      (((VectorStore.delete_resource s resource_id).1.metadata_store[i]?).map
          Metadata.resource_id
        = (s.metadata_store[i]?).map Metadata.resource_id) ∧
      (((VectorStore.delete_resource s resource_id).1.metadata_store[i]?).map
          Metadata.file_name = (s.metadata_store[i]?).map Metadata.file_name) ∧
      (((VectorStore.delete_resource s resource_id).1.metadata_store[i]?).map
          Metadata.page_number
        = (s.metadata_store[i]?).map Metadata.page_number) ∧
      (((VectorStore.delete_resource s resource_id).1.metadata_store[i]?).map
          Metadata.text = (s.metadata_store[i]?).map Metadata.text) ∧
      (((VectorStore.delete_resource s resource_id).1.metadata_store[i]?).map
          Metadata.uploaded_at
        = (s.metadata_store[i]?).map Metadata.uploaded_at) ∧
      (((VectorStore.delete_resource s resource_id).1.metadata_store[i]?).map
          Metadata.deleted
        = (s.metadata_store[i]?).map
            (fun m => m.deleted || m.resource_id == resource_id))) ∧
    (∀ i : Nat, ∀ m, s.metadata_store[i]? = some m →
      (m.resource_id == resource_id && !m.deleted) = false →
      (VectorStore.delete_resource s resource_id).1.metadata_store[i]?
        = some m) := by
  refine ⟨rfl, by simp [VectorStore.delete_resource], ?_, ?_⟩
  · intro i
    simp only [VectorStore.delete_resource, List.getElem?_map]
    cases s.metadata_store[i]? with
    | none => simp
    | some m =>
      by_cases hr : m.resource_id = resource_id
      · by_cases hd : m.deleted = true
        · simp [hr, hd]
        · simp [hr, hd]
      · simp [hr]
  · intro i m hm hc
    have hid : (if (m.resource_id == resource_id && !m.deleted) = true
        then { m with deleted := true } else m) = m := by
      rw [if_neg (by simp [hc])]
    simp only [VectorStore.delete_resource, List.getElem?_map, hm,
      Option.map_some']
    exact congrArg some hid

/-! ## Alignment invariant (claim C2) -/

/-- C2: the vector storage and the metadata sequence have equal length in
every state satisfying the invariant, and the invariant — including the
positional pairing of vector `i` with metadata entry `i` — is preserved
by `add_documents` (which appends to both structures in lockstep, after
checking the counts agree), by `delete_resource` (which touches neither
the vectors nor the positions of metadata entries), and by a
`save`/`load` round-trip (which restores the state exactly). -/
theorem alignment_invariant (s : VectorStore)
    (hs : s.index.length = s.metadata_store.length) :
    (∀ normalize embeddings metadatas s',
        VectorStore.add_documents normalize s embeddings metadatas = .ok s' →
        s'.index.length = s'.metadata_store.length ∧
        s'.index = s.index ++ embeddings.map normalize ∧
        s'.metadata_store = s.metadata_store ++ metadatas) ∧
    (∀ resource_id,
        (VectorStore.delete_resource s resource_id).1.index.length
          = (VectorStore.delete_resource s resource_id).1.metadata_store.length ∧
        (VectorStore.delete_resource s resource_id).1.index = s.index ∧
        (VectorStore.delete_resource s resource_id).1.metadata_store.length
          = s.metadata_store.length) ∧
    VectorStore.load (some (VectorStore.save s)) = .ok s := by
  refine ⟨?_, ?_, rfl⟩
  · intro normalize embeddings metadatas s' h
    simp only [VectorStore.add_documents] at h
    split at h
    · exact absurd h (by simp)
    · rename_i hlen
      rw [not_ne_iff] at hlen
      cases h
      refine ⟨?_, rfl, rfl⟩
      simp [hs, hlen]
  · intro resource_id
    refine ⟨?_, rfl, by simp [VectorStore.delete_resource]⟩
    simpa [VectorStore.delete_resource] using hs

/-- Witness for C2 at a concrete aligned store: an append of one
vector/metadata pair preserves alignment, and the save/load round-trip
restores the state. -/
theorem alignment_invariant_witness :
    (VectorStore.mk [[1]] [⟨"c", "r", "f", 1, "t", "u", false⟩]).index.length
      = (VectorStore.mk [[1]] [⟨"c", "r", "f", 1, "t", "u", false⟩]).metadata_store.length ∧
    VectorStore.add_documents (fun v => v)
        (VectorStore.mk [[1]] [⟨"c", "r", "f", 1, "t", "u", false⟩])
        [[2]] [⟨"c2", "r2", "f2", 2, "t2", "u2", false⟩]
      = .ok (VectorStore.mk [[1], [2]]
          [⟨"c", "r", "f", 1, "t", "u", false⟩,
           ⟨"c2", "r2", "f2", 2, "t2", "u2", false⟩]) ∧
    (VectorStore.mk [[1], [2]]
        [⟨"c", "r", "f", 1, "t", "u", false⟩,
         ⟨"c2", "r2", "f2", 2, "t2", "u2", false⟩]).index.length
      = (VectorStore.mk [[1], [2]]
          [⟨"c", "r", "f", 1, "t", "u", false⟩,
           ⟨"c2", "r2", "f2", 2, "t2", "u2", false⟩]).metadata_store.length ∧
    VectorStore.load (some (VectorStore.save
        (VectorStore.mk [[1]] [⟨"c", "r", "f", 1, "t", "u", false⟩])))
      = .ok (VectorStore.mk [[1]] [⟨"c", "r", "f", 1, "t", "u", false⟩]) :=
  ⟨by decide, by rfl,
   ((alignment_invariant (VectorStore.mk [[1]] [⟨"c", "r", "f", 1, "t", "u", false⟩])
        (by decide)).1 (fun v => v) [[2]] [⟨"c2", "r2", "f2", 2, "t2", "u2", false⟩]
      (VectorStore.mk [[1], [2]]
        [⟨"c", "r", "f", 1, "t", "u", false⟩,
         ⟨"c2", "r2", "f2", 2, "t2", "u2", false⟩]) (by rfl)).1,
   (alignment_invariant (VectorStore.mk [[1]] [⟨"c", "r", "f", 1, "t", "u", false⟩])
      (by decide)).2.2⟩

/-- Witness for C6: deleting resource `"r"` in a two-chunk store marks
its chunk, and the second call newly marks nothing. -/
theorem delete_resource_marks_and_idempotent_witness :
    (⟨"c1", "r", "f", 1, "t", "u", true⟩ : Metadata)
      ∈ (VectorStore.delete_resource
          (VectorStore.mk []
            [⟨"c1", "r", "f", 1, "t", "u", false⟩,
             ⟨"c2", "other", "g", 2, "t2", "u2", false⟩]) "r").1.metadata_store ∧
    (⟨"c1", "r", "f", 1, "t", "u", true⟩ : Metadata).resource_id = "r" ∧
    (⟨"c1", "r", "f", 1, "t", "u", true⟩ : Metadata).deleted = true ∧
    (VectorStore.delete_resource
        (VectorStore.delete_resource
          (VectorStore.mk []
            [⟨"c1", "r", "f", 1, "t", "u", false⟩,
             ⟨"c2", "other", "g", 2, "t2", "u2", false⟩]) "r").1 "r").2 = 0 :=
  ⟨by decide, by decide,
   (delete_resource_marks_and_idempotent
      (VectorStore.mk []
        [⟨"c1", "r", "f", 1, "t", "u", false⟩,
         ⟨"c2", "other", "g", 2, "t2", "u2", false⟩]) "r").1
     ⟨"c1", "r", "f", 1, "t", "u", true⟩ (by decide) (by decide),
   (delete_resource_marks_and_idempotent
      (VectorStore.mk []
        [⟨"c1", "r", "f", 1, "t", "u", false⟩,
         ⟨"c2", "other", "g", 2, "t2", "u2", false⟩]) "r").2.2⟩

/-- Witness for C10 at a concrete store: an already-deleted entry and an
entry of another resource are returned unchanged. -/
theorem delete_resource_frame_witness :
    (VectorStore.delete_resource
        (VectorStore.mk []
          [⟨"c1", "r", "f", 1, "t", "u", true⟩,
           ⟨"c2", "other", "g", 2, "t2", "u2", false⟩]) "r").1.index = [] ∧
    (VectorStore.mk []
        [⟨"c1", "r", "f", 1, "t", "u", true⟩,
         ⟨"c2", "other", "g", 2, "t2", "u2", false⟩]).metadata_store[0]?
      = some ⟨"c1", "r", "f", 1, "t", "u", true⟩ ∧
    ((⟨"c1", "r", "f", 1, "t", "u", true⟩ : Metadata).resource_id == "r"
        && !(⟨"c1", "r", "f", 1, "t", "u", true⟩ : Metadata).deleted) = false ∧
    (VectorStore.delete_resource
        (VectorStore.mk []
          [⟨"c1", "r", "f", 1, "t", "u", true⟩,
           ⟨"c2", "other", "g", 2, "t2", "u2", false⟩]) "r").1.metadata_store[0]?
      = some ⟨"c1", "r", "f", 1, "t", "u", true⟩ :=
  ⟨(delete_resource_frame
      (VectorStore.mk []
        [⟨"c1", "r", "f", 1, "t", "u", true⟩,
         ⟨"c2", "other", "g", 2, "t2", "u2", false⟩]) "r").1,
   by decide, by decide,
   (delete_resource_frame
      (VectorStore.mk []
        [⟨"c1", "r", "f", 1, "t", "u", true⟩,
         ⟨"c2", "other", "g", 2, "t2", "u2", false⟩]) "r").2.2.2 0
     ⟨"c1", "r", "f", 1, "t", "u", true⟩ (by decide) (by decide)⟩

/-! ## ResourceService deletion (claim C7) -/

/-- C7: `ResourceService.delete_resource` fails with `NotFound` exactly
when the underlying soft delete newly marks zero chunks; on success it
returns the newly-marked count and the soft-deleted store, removes the
resource's uploaded file when one exists (`.pdf` tried before `.docx`),
and the absence of any such file is not surfaced — the call still
succeeds with the file list unchanged. -/
theorem resource_delete_notfound_iff (s : VectorStore) (files : List String)
    (resource_id : String) :
    ((∃ e, ResourceService.delete_resource s files resource_id = .error e)
      ↔ (VectorStore.delete_resource s resource_id).2 = 0) ∧
    (∀ s' files' n',
        ResourceService.delete_resource s files resource_id
          = .ok (s', files', n') →
        n' = (VectorStore.delete_resource s resource_id).2 ∧
        s' = (VectorStore.delete_resource s resource_id).1) ∧
    ((resource_id ++ ".pdf") ∈ files →
        (VectorStore.delete_resource s resource_id).2 ≠ 0 →
        ResourceService.delete_resource s files resource_id
          = .ok ((VectorStore.delete_resource s resource_id).1,
                 files.erase (resource_id ++ ".pdf"),
                 (VectorStore.delete_resource s resource_id).2)) ∧
    ((resource_id ++ ".pdf") ∉ files → (resource_id ++ ".docx") ∈ files →
        (VectorStore.delete_resource s resource_id).2 ≠ 0 →
        ResourceService.delete_resource s files resource_id
          = .ok ((VectorStore.delete_resource s resource_id).1,
                 files.erase (resource_id ++ ".docx"),
                 (VectorStore.delete_resource s resource_id).2)) ∧
    ((resource_id ++ ".pdf") ∉ files → (resource_id ++ ".docx") ∉ files →
        (VectorStore.delete_resource s resource_id).2 ≠ 0 →
        ResourceService.delete_resource s files resource_id
          = .ok ((VectorStore.delete_resource s resource_id).1, files,
                 (VectorStore.delete_resource s resource_id).2)) := by
  by_cases hn : (VectorStore.delete_resource s resource_id).2 = 0
  · refine ⟨⟨fun _ => hn, fun _ => ?_⟩, ?_, ?_, ?_, ?_⟩
    · exact ⟨"Resource not found: " ++ resource_id,
        by simp [ResourceService.delete_resource, hn]⟩
    · intro s' files' n' h
      simp [ResourceService.delete_resource, hn] at h
    · exact fun _ h => absurd hn h
    · exact fun _ _ h => absurd hn h
    · exact fun _ _ h => absurd hn h
  · refine ⟨⟨fun ⟨e, he⟩ => ?_, fun h => absurd h hn⟩, ?_, ?_, ?_, ?_⟩
    · simp only [ResourceService.delete_resource, if_neg hn] at he
      split at he <;> simp at he
    · intro s' files' n' h
      simp only [ResourceService.delete_resource, if_neg hn] at h
      split at h <;> (simp at h; exact ⟨h.2.2.symm, h.1.symm⟩)
    · intro hp _
      simp [ResourceService.delete_resource, if_neg hn, hp]
    · intro hp hd _
      simp [ResourceService.delete_resource, if_neg hn, hp, hd]
    · intro hp hd _
      simp [ResourceService.delete_resource, if_neg hn, hp, hd]

/-- Witness for C7: deleting resource `"r"` with its `.pdf` present in
the upload directory succeeds, removes the file, and returns the count
of newly marked chunks. -/
theorem resource_delete_notfound_iff_witness :
    ("r.pdf" ∈ ["r.pdf", "x.docx"]) ∧
    (VectorStore.delete_resource
        (VectorStore.mk [[1]] [⟨"c1", "r", "f.pdf", 1, "t", "u", false⟩]) "r").2
      ≠ 0 ∧
    ResourceService.delete_resource
        (VectorStore.mk [[1]] [⟨"c1", "r", "f.pdf", 1, "t", "u", false⟩])
        ["r.pdf", "x.docx"] "r"
      = .ok ((VectorStore.delete_resource
            (VectorStore.mk [[1]] [⟨"c1", "r", "f.pdf", 1, "t", "u", false⟩])
            "r").1,
          ["x.docx"],
          (VectorStore.delete_resource
            (VectorStore.mk [[1]] [⟨"c1", "r", "f.pdf", 1, "t", "u", false⟩])
            "r").2) :=
  ⟨by decide, by decide, by
    have h := (resource_delete_notfound_iff
        (VectorStore.mk [[1]] [⟨"c1", "r", "f.pdf", 1, "t", "u", false⟩])
        ["r.pdf", "x.docx"] "r").2.2.1 (by decide) (by decide)
    simpa using h⟩

/-! ## Pagination and `total_found` (claims C4, C5) -/

/-- Length of the reranked batch: the annotation zip pairs each document
with its score (the model returns one score per pair), sorting preserves
length, and the result is truncated to `top_k`. -/
theorem rerank_length (predict : List (String × String) → List ℚ)
    (query : String) (documents : List Doc) (top_k : Nat)
    (hlen : (predict (documents.map (fun doc => (query, doc.text)))).length
      = documents.length) :
    (Reranker.rerank predict query documents top_k).length
      = min top_k documents.length := by
  rw [Reranker.rerank]
  split
  · rename_i h
    simp [List.isEmpty_iff.mp h]
  · rw [List.length_take, sortDescBy_length, Reranker.annotate,
      List.length_zipWith, hlen, Nat.min_self]

/-- C4: for every offset and limit, the response carries exactly the
slice `[offset, offset+limit)` of the reranked sequence, hence
`min limit (len(reranked) - offset)` results (truncated subtraction is
`max 0` of the difference), and `has_more` holds exactly when
`offset + limit < len(reranked)`. -/
theorem search_pagination (normalize : Vec → Vec)
    (predict : List (String × String) → List ℚ) (embed : String → Vec)
    (s : VectorStore) (query : String) (filters : Option Filters)
    (top_k offset limit : Nat) :
    (SearchService.search normalize predict embed s query filters top_k
        offset limit).results.length
      = min limit
          ((SearchService.rerankedOf normalize predict s query (embed query)
              filters offset limit).length - offset) ∧
    (SearchService.search normalize predict embed s query filters top_k
        offset limit).results
      = (((SearchService.rerankedOf normalize predict s query (embed query)
            filters offset limit).drop offset).take limit).map
          SearchService.toSearchResult ∧
    ((SearchService.search normalize predict embed s query filters top_k
        offset limit).has_more = true
      ↔ offset + limit
          < (SearchService.rerankedOf normalize predict s query (embed query)
              filters offset limit).length) := by
  by_cases h :
    (match filters with
      | some f => SearchService.apply_filters
          (VectorStore.search normalize s (embed query)
            (max 50 (offset + limit + 10))) f
      | none => VectorStore.search normalize s (embed query)
          (max 50 (offset + limit + 10))).isEmpty
  · simp [SearchService.search, SearchService.rerankedOf, h]
  · simp only [SearchService.search, SearchService.rerankedOf, h,
      Bool.false_eq_true, if_false, Nat.add_sub_cancel_left]
    refine ⟨?_, by trivial, ?_⟩
    · simp [Nat.add_sub_cancel_left, Nat.min_comm]
    · simp

/-- C5: the response's `total_found` is the length of the reranked
sequence — bounded by `min` of the filtered candidate count and
`offset + limit + 10`, not the corpus-wide match count — and when no
candidates survive filtering the response is empty with `total_found = 0`,
`has_more = false` and the requested `offset`/`limit`. -/
theorem search_total_found (normalize : Vec → Vec)
    (predict : List (String × String) → List ℚ) (embed : String → Vec)
    (s : VectorStore) (query : String) (filters : Option Filters)
    (top_k offset limit : Nat)
    (hp : ∀ pairs, (predict pairs).length = pairs.length) :
    ((match filters with
      | some f => SearchService.apply_filters
          (VectorStore.search normalize s (embed query)
            (max 50 (offset + limit + 10))) f
      | none => VectorStore.search normalize s (embed query)
          (max 50 (offset + limit + 10))) ≠ [] →
      (SearchService.search normalize predict embed s query filters top_k
          offset limit).total_found
        = (SearchService.rerankedOf normalize predict s query (embed query)
            filters offset limit).length ∧
      (SearchService.rerankedOf normalize predict s query (embed query)
          filters offset limit).length
        = min (match filters with
            | some f => SearchService.apply_filters
                (VectorStore.search normalize s (embed query)
                  (max 50 (offset + limit + 10))) f
            | none => VectorStore.search normalize s (embed query)
                (max 50 (offset + limit + 10))).length
            (offset + limit + 10)) ∧
    ((match filters with
      | some f => SearchService.apply_filters
          (VectorStore.search normalize s (embed query)
            (max 50 (offset + limit + 10))) f
      | none => VectorStore.search normalize s (embed query)
          (max 50 (offset + limit + 10))) = [] →
      SearchService.search normalize predict embed s query filters top_k
          offset limit
        = { query := query, results := [], total_found := 0,
            has_more := false, offset := offset, limit := limit }) := by
  constructor
  · intro hne
    have h : (match filters with
        | some f => SearchService.apply_filters
            (VectorStore.search normalize s (embed query)
              (max 50 (offset + limit + 10))) f
        | none => VectorStore.search normalize s (embed query)
            (max 50 (offset + limit + 10))).isEmpty = false := by
      simpa [List.isEmpty_iff] using hne
    constructor
    · simp [SearchService.search, SearchService.rerankedOf, h]
    · simp only [SearchService.rerankedOf, h, Bool.false_eq_true, if_false]
      rw [rerank_length _ _ _ _ (by rw [hp, List.length_map])]
      rw [List.length_map]
      rw [Nat.min_comm _ (offset + limit + 10), Nat.min_assoc, Nat.min_self,
        Nat.min_comm]
  · intro hemp
    have h : (match filters with
        | some f => SearchService.apply_filters
            (VectorStore.search normalize s (embed query)
              (max 50 (offset + limit + 10))) f
        | none => VectorStore.search normalize s (embed query)
            (max 50 (offset + limit + 10))).isEmpty = true := by
      simp [hemp]
    simp [SearchService.search, h]

/-- Witness for C5: on a one-chunk store with no filters, a constant
scoring model and `offset = 0, limit = 10`, one candidate survives and
`total_found` is the reranked length, `min 1 20 = 1`. -/
theorem search_total_found_witness :
    (∀ pairs : List (String × String),
      ((fun l : List (String × String) => l.map (fun _ => (0 : ℚ))) pairs).length
        = pairs.length) ∧
    VectorStore.search (fun v => v)
        (VectorStore.mk [[1]] [⟨"c1", "r", "a.pdf", 1, "x", "u", false⟩])
        [1] (max 50 (0 + 10 + 10)) ≠ [] ∧
    ((SearchService.search (fun v => v)
          (fun l : List (String × String) => l.map (fun _ => (0 : ℚ)))
          (fun _ => [1])
          (VectorStore.mk [[1]] [⟨"c1", "r", "a.pdf", 1, "x", "u", false⟩])
          "q" none 10 0 10).total_found
        = (SearchService.rerankedOf (fun v => v)
            (fun l : List (String × String) => l.map (fun _ => (0 : ℚ)))
            (VectorStore.mk [[1]] [⟨"c1", "r", "a.pdf", 1, "x", "u", false⟩])
            "q" [1] none 0 10).length ∧
      (SearchService.rerankedOf (fun v => v)
          (fun l : List (String × String) => l.map (fun _ => (0 : ℚ)))
          (VectorStore.mk [[1]] [⟨"c1", "r", "a.pdf", 1, "x", "u", false⟩])
          "q" [1] none 0 10).length
        = min (VectorStore.search (fun v => v)
            (VectorStore.mk [[1]] [⟨"c1", "r", "a.pdf", 1, "x", "u", false⟩])
            [1] (max 50 (0 + 10 + 10))).length (0 + 10 + 10)) :=
  ⟨fun pairs => by simp,
   by decide,
   (search_total_found (fun v => v)
      (fun l : List (String × String) => l.map (fun _ => (0 : ℚ)))
      (fun _ => [1])
      (VectorStore.mk [[1]] [⟨"c1", "r", "a.pdf", 1, "x", "u", false⟩])
      "q" none 10 0 10 (fun pairs => by simp)).1 (by decide)⟩

/-! ## Metadata filtering (claim C9) -/

/-- C9: filtering keeps a candidate exactly when it satisfies every
present filter — `type` compared case-insensitively against the last
`.`-separated component of the file name, `file_name` as a
case-insensitive substring — the output is a subsequence of the input
(kept pairs unchanged, order preserved), and in the pipeline the filter
runs on the recalled candidate list, whose survivors (not the corpus)
feed the reranker. -/
theorem apply_filters_spec (results : List (Metadata × ℚ))
    (filters : Filters) :
    List.Sublist (SearchService.apply_filters results filters) results ∧
    (∀ p : Metadata × ℚ,
      p ∈ SearchService.apply_filters results filters ↔
        p ∈ results ∧
        (∀ t, filters.ftype = some t →
          ((p.1.file_name.splitOn ".").getLastD "").toLower = t.toLower) ∧
        (∀ sub, filters.file_name = some sub →
          List.IsInfix sub.toLower.toList p.1.file_name.toLower.toList)) ∧
    (∀ normalize predict s query query_embedding offset limit,
      SearchService.rerankedOf normalize predict s query query_embedding
          (some filters) offset limit
        = (if (SearchService.apply_filters
              (VectorStore.search normalize s query_embedding
                (max 50 (offset + limit + 10))) filters).isEmpty then []
           else
             Reranker.rerank predict query
               ((SearchService.apply_filters
                  (VectorStore.search normalize s query_embedding
                    (max 50 (offset + limit + 10))) filters).map
                 SearchService.mkDoc)
               (min ((SearchService.apply_filters
                    (VectorStore.search normalize s query_embedding
                      (max 50 (offset + limit + 10))) filters).map
                   SearchService.mkDoc).length
                 (offset + limit + 10)))) := by
  refine ⟨List.filter_sublist _, ?_, fun _ _ _ _ _ _ _ => rfl⟩
  intro p
  rw [SearchService.apply_filters, List.mem_filter]
  constructor
  · rintro ⟨hmem, hpass⟩
    refine ⟨hmem, ?_, ?_⟩
    · intro t ht
      rw [SearchService.passesFilters, ht, Bool.and_eq_true] at hpass
      exact beq_iff_eq.mp hpass.1
    · intro sub hsub
      rw [SearchService.passesFilters, hsub, Bool.and_eq_true] at hpass
      have hsc := hpass.2
      simp only [strContains] at hsc
      exact of_decide_eq_true hsc
  · rintro ⟨hmem, htype, hname⟩
    refine ⟨hmem, ?_⟩
    rw [SearchService.passesFilters, Bool.and_eq_true]
    constructor
    · cases ht : filters.ftype with
      | none => rfl
      | some t => exact beq_iff_eq.mpr (htype t ht)
    · cases hf : filters.file_name with
      | none => rfl
      | some sub => exact decide_eq_true (hname sub hf)

/-! ## Min-max normalization of rerank scores (claim C3) -/

theorem foldl_min_le_init (l : List ℚ) (a : ℚ) : l.foldl min a ≤ a := by
  induction l generalizing a with
  | nil => exact le_refl a
  | cons x l ih => exact le_trans (ih (min a x)) (min_le_left a x)

theorem foldl_min_le_mem (l : List ℚ) (a : ℚ) : ∀ x ∈ l, l.foldl min a ≤ x := by
  induction l generalizing a with
  | nil => intro x hx; cases hx
  | cons y l ih =>
    intro x hx
    rcases List.mem_cons.mp hx with rfl | hx
    · exact le_trans (foldl_min_le_init l (min a x)) (min_le_right a x)
    · exact ih (min a y) x hx

theorem foldl_min_mem (l : List ℚ) (a : ℚ) : l.foldl min a ∈ a :: l := by
  induction l generalizing a with
  | nil => exact List.mem_singleton.mpr rfl
  | cons y l ih =>
    have h := ih (min a y)
    rcases List.mem_cons.mp h with h | h
    · rcases min_choice a y with h' | h'
      · exact List.mem_cons.mpr (Or.inl (h.trans h'))
      · exact List.mem_cons.mpr (Or.inr (List.mem_cons.mpr (Or.inl (h.trans h'))))
    · exact List.mem_cons.mpr (Or.inr (List.mem_cons.mpr (Or.inr h)))

theorem init_le_foldl_max (l : List ℚ) (a : ℚ) : a ≤ l.foldl max a := by
  induction l generalizing a with
  | nil => exact le_refl a
  | cons x l ih => exact le_trans (le_max_left a x) (ih (max a x))

theorem mem_le_foldl_max (l : List ℚ) (a : ℚ) : ∀ x ∈ l, x ≤ l.foldl max a := by
  induction l generalizing a with
  | nil => intro x hx; cases hx
  | cons y l ih =>
    intro x hx
    rcases List.mem_cons.mp hx with rfl | hx
    · exact le_trans (le_max_right a x) (init_le_foldl_max l (max a x))
    · exact ih (max a y) x hx

theorem foldl_max_mem (l : List ℚ) (a : ℚ) : l.foldl max a ∈ a :: l := by
  induction l generalizing a with
  | nil => exact List.mem_singleton.mpr rfl
  | cons y l ih =>
    have h := ih (max a y)
    rcases List.mem_cons.mp h with h | h
    · rcases max_choice a y with h' | h'
      · exact List.mem_cons.mpr (Or.inl (h.trans h'))
      · exact List.mem_cons.mpr (Or.inr (List.mem_cons.mpr (Or.inl (h.trans h'))))
    · exact List.mem_cons.mpr (Or.inr (List.mem_cons.mpr (Or.inr h)))

/-- `scores.min()` is a lower bound of the batch. -/
theorem listMin_le {l : List ℚ} {x : ℚ} (hx : x ∈ l) : listMin l ≤ x := by
  cases l with
  | nil => cases hx
  | cons a l =>
    rcases List.mem_cons.mp hx with rfl | hx
    · exact foldl_min_le_init l x
    · exact foldl_min_le_mem l a x hx

/-- `scores.max()` is an upper bound of the batch. -/
theorem le_listMax {l : List ℚ} {x : ℚ} (hx : x ∈ l) : x ≤ listMax l := by
  cases l with
  | nil => cases hx
  | cons a l =>
    rcases List.mem_cons.mp hx with rfl | hx
    · exact init_le_foldl_max l x
    · exact mem_le_foldl_max l a x hx

theorem listMin_mem {l : List ℚ} (h : l ≠ []) : listMin l ∈ l := by
  cases l with
  | nil => exact absurd rfl h
  | cons a l => exact foldl_min_mem l a

theorem listMax_mem {l : List ℚ} (h : l ≠ []) : listMax l ∈ l := by
  cases l with
  | nil => exact absurd rfl h
  | cons a l => exact foldl_max_mem l a

/-- Every element of a `zipWith` comes from a pair of elements of the
two input lists. -/
theorem exists_of_mem_zipWith {f : α → β → γ} {x : γ} :
    ∀ {l₁ : List α} {l₂ : List β}, x ∈ List.zipWith f l₁ l₂ →
      ∃ a ∈ l₁, ∃ b ∈ l₂, x = f a b := by
  intro l₁
  induction l₁ with
  | nil => intro l₂ h; simp at h
  | cons a l₁ ih =>
    intro l₂ h
    cases l₂ with
    | nil => simp at h
    | cons b l₂ =>
      rcases List.mem_cons.mp h with rfl | h
      · exact ⟨a, List.mem_cons_self a l₁, b, List.mem_cons_self b l₂, rfl⟩
      · obtain ⟨a', ha', b', hb', rfl⟩ := ih h
        exact ⟨a', List.mem_cons_of_mem a ha', b',
          List.mem_cons_of_mem b hb', rfl⟩

/-- The rerank score of every annotated document is the min-max
normalization of one of the raw scores. -/
theorem rerank_score_of_mem_annotate {documents : List Doc}
    {scores : List ℚ} {d : Doc}
    (hd : d ∈ Reranker.annotate documents scores) :
    ∃ sc ∈ scores, d.rerank_score = normalizedScore scores documents.length sc := by
  obtain ⟨doc, _, sc, hsc, rfl⟩ := exists_of_mem_zipWith hd
  exact ⟨sc, hsc, rfl⟩

/-- Every member of the reranked output is an annotated document. -/
theorem mem_annotate_of_mem_rerank {predict : List (String × String) → List ℚ}
    {query : String} {documents : List Doc} {top_k : Nat} {d : Doc}
    (hd : d ∈ Reranker.rerank predict query documents top_k) :
    d ∈ Reranker.annotate documents
      (predict (documents.map (fun doc => (query, doc.text)))) := by
  rw [Reranker.rerank] at hd
  split at hd
  · cases hd
  · exact (sortDescBy_perm Doc.rerank_score _).mem_iff.mp
      ((List.take_sublist _ _).subset hd)

/-- C3: in a non-empty batch (with one raw score per document, by the
model's contract) the reranker output is the stable descending sort of
the annotated documents truncated to `top_k`; every annotated position
carries `(score - min) / (max - min)` when the batch has distinct
extremes and otherwise `1` (singleton batch) or `1/2`; every returned
score lies in `[0, 1]`; if all raw scores are equal every returned score
is exactly `1` for a singleton batch and exactly `1/2` otherwise; the
output is sorted descending by `rerank_score`; and the sort is stable,
so candidates with equal scores keep their pre-rerank order. -/
theorem rerank_minmax_normalization
    (predict : List (String × String) → List ℚ) (query : String)
    (documents : List Doc) (top_k : Nat) (scores : List ℚ)
    (hscores : predict (documents.map (fun doc => (query, doc.text))) = scores)
    (hne : documents ≠ [])
    (hlen : scores.length = documents.length) :
    Reranker.rerank predict query documents top_k
      = (sortDescBy Doc.rerank_score
          (Reranker.annotate documents scores)).take top_k ∧
    (∀ i : Nat,
      ((Reranker.annotate documents scores)[i]?).map Doc.rerank_score
        = (scores[i]?).map (fun sc =>
            if listMin scores < listMax scores then
              (sc - listMin scores) / (listMax scores - listMin scores)
            else if documents.length = 1 then 1 else 1/2)) ∧
    (∀ d ∈ Reranker.rerank predict query documents top_k,
        0 ≤ d.rerank_score ∧ d.rerank_score ≤ 1) ∧
    ((∀ x ∈ scores, ∀ y ∈ scores, x = y) →
      (documents.length = 1 →
        ∀ d ∈ Reranker.rerank predict query documents top_k,
          d.rerank_score = 1) ∧
      (documents.length ≠ 1 →
        ∀ d ∈ Reranker.rerank predict query documents top_k,
          d.rerank_score = 1/2)) ∧
    (Reranker.rerank predict query documents top_k).Pairwise
      (fun a b => b.rerank_score ≤ a.rerank_score) ∧
    (∀ c, List.Sublist c (Reranker.annotate documents scores) →
      c.Pairwise (fun a b => b.rerank_score ≤ a.rerank_score) →
      List.Sublist c
        (sortDescBy Doc.rerank_score (Reranker.annotate documents scores))) := by
  have hEmp : documents.isEmpty = false := by
    simpa [List.isEmpty_iff] using hne
  have hout : Reranker.rerank predict query documents top_k
      = (sortDescBy Doc.rerank_score
          (Reranker.annotate documents scores)).take top_k := by
    simp only [Reranker.rerank, hEmp, Bool.false_eq_true, if_false, hscores]
  have hmemscore : ∀ d ∈ Reranker.rerank predict query documents top_k,
      ∃ sc ∈ scores, d.rerank_score
        = normalizedScore scores documents.length sc := by
    intro d hd
    have := mem_annotate_of_mem_rerank hd
    rw [hscores] at this
    exact rerank_score_of_mem_annotate this
  refine ⟨hout, ?_, ?_, ?_, ?_, ?_⟩
  · intro i
    rw [Reranker.annotate, List.getElem?_zipWith]
    rcases Nat.lt_or_ge i documents.length with hi | hi
    · rw [List.getElem?_eq_getElem hi,
        List.getElem?_eq_getElem (by rw [hlen]; exact hi)]
      simp [normalizedScore, sub_pos]
    · rw [List.getElem?_eq_none hi, List.getElem?_eq_none (by rw [hlen]; exact hi)]
      simp
  · intro d hd
    obtain ⟨sc, hsc, hval⟩ := hmemscore d hd
    rw [hval, normalizedScore]
    split
    · rename_i hrange
      constructor
      · exact div_nonneg (sub_nonneg.mpr (listMin_le hsc)) (le_of_lt hrange)
      · exact (div_le_one hrange).mpr (sub_le_sub_right (le_listMax hsc) _)
    · split <;> norm_num
  · intro hall
    have hsne : scores ≠ [] := by
      intro h
      rw [h] at hlen
      exact hne (List.length_eq_zero.mp hlen.symm)
    have hminmax : listMax scores = listMin scores :=
      hall _ (listMax_mem hsne) _ (listMin_mem hsne)
    have hrange : ¬(0 < listMax scores - listMin scores) := by
      rw [hminmax]; simp
    constructor
    · intro h1 d hd
      obtain ⟨sc, _, hval⟩ := hmemscore d hd
      simp only [hval, normalizedScore]
      rw [if_neg hrange, if_pos h1]
    · intro h1 d hd
      obtain ⟨sc, _, hval⟩ := hmemscore d hd
      simp only [hval, normalizedScore]
      rw [if_neg hrange, if_neg h1]
  · rw [hout]
    exact (sortDescBy_sorted Doc.rerank_score _).sublist (List.take_sublist _ _)
  · intro c hsub hc
    exact sortDescBy_stable Doc.rerank_score hc hsub

/-! ## Vector search (claim C1) -/

/-- Characterization of a successful hit: the position resolves in the
metadata store, the entry is live, and the vector score is carried
through. -/
theorem searchHit_eq_some {metadata_store : List Metadata} {p : Nat × ℚ}
    {q : Metadata × ℚ} :
    searchHit metadata_store p = some q ↔
      metadata_store[p.1]? = some q.1 ∧ q.1.deleted = false ∧ q.2 = p.2 := by
  cases hm : metadata_store[p.1]? with
  | none =>
    have hred : searchHit metadata_store p = none := by rw [searchHit, hm]
    rw [hred]
    simp
  | some m =>
    have hred : searchHit metadata_store p
        = if m.deleted = true then none else some (m, p.2) := by
      rw [searchHit, hm]
    rw [hred]
    by_cases hd : m.deleted = true
    · rw [if_pos hd]
      constructor
      · intro h; cases h
      · rintro ⟨h1, h2, _⟩
        exfalso
        rw [Option.some.inj h1, h2] at hd
        exact Bool.noConfusion hd
    · rw [if_neg hd]
      constructor
      · intro h
        have hq := Option.some.inj h
        subst hq
        exact ⟨rfl, by simpa using hd, rfl⟩
      · rintro ⟨h1, _, h3⟩
        have hm1 := Option.some.inj h1
        subst hm1
        rw [← h3, Prod.mk.eta]

/-- Dropping the score projects a hit to a metadata lookup that keeps
live entries. -/
theorem searchHit_map_fst (metadata_store : List Metadata) (p : Nat × ℚ) :
    (searchHit metadata_store p).map Prod.fst
      = (metadata_store[p.1]?).bind
          (fun m => if m.deleted then none else some m) := by
  rw [searchHit]
  cases metadata_store[p.1]? with
  | none => rfl
  | some m =>
    by_cases hd : m.deleted = true
    · simp [hd]
    · simp only [Bool.not_eq_true] at hd
      simp [hd]

/-- Looking positions up along `enumFrom` past a known prefix recovers
the positional list itself. -/
theorem filterMap_enumFrom_lookup {β : Type _} (f : Metadata → Option β) :
    ∀ (ms : List Metadata) (l : List ℚ) (pre : List Metadata),
      l.length = ms.length →
      (l.enumFrom pre.length).filterMap
        (fun p => ((pre ++ ms)[p.1]?).bind f)
      = ms.filterMap f := by
  intro ms
  induction ms with
  | nil =>
    intro l pre h
    rw [List.length_eq_zero.mp h]
    rfl
  | cons m ms ih =>
    intro l pre h
    cases l with
    | nil => simp at h
    | cons sc l =>
      rw [List.enumFrom_cons, List.filterMap_cons]
      have hlook : (pre ++ m :: ms)[pre.length]? = some m := by
        rw [List.getElem?_append_right (le_refl _)]
        simp
      have htail : (l.enumFrom (pre.length + 1)).filterMap
          (fun p => ((pre ++ m :: ms)[p.1]?).bind f) = ms.filterMap f := by
        have h' : l.length = ms.length := by simpa using h
        have hih := ih l (pre ++ [m]) h'
        simpa [List.append_assoc] using hih
      rw [hlook]
      cases hfm : f m with
      | none => simp [hfm, htail, List.filterMap_cons]
      | some b => simp [hfm, htail, List.filterMap_cons]

/-- Keeping the live entries of a metadata list. -/
theorem filterMap_live (ms : List Metadata) :
    ms.filterMap (fun m => if m.deleted then none else some m)
      = ms.filter (fun m => !m.deleted) := by
  induction ms with
  | nil => rfl
  | cons m ms ih =>
    by_cases hd : m.deleted = true
    · simp [List.filterMap_cons, List.filter_cons, hd, ih]
    · simp only [Bool.not_eq_true] at hd
      simp [List.filterMap_cons, List.filter_cons, hd, ih]

/-- C1 (amended): `search` returns entries in descending score order and
never returns a deleted entry; an empty index yields the empty result;
and whenever the requested `k` is at least the total number of stored
entries (in an aligned state), the result is exactly the live entries,
ranked.  (When `k` merely exceeds the number of live entries but is
smaller than the total count, deleted entries can crowd live ones out of
the top-`k`, so the original statement fails; see the counterexample.) -/
theorem search_ranked_live (normalize : Vec → Vec) (s : VectorStore)
    (query_embedding : Vec) (k : Nat) :
    (VectorStore.search normalize s query_embedding k).Pairwise
      (fun a b => b.2 ≤ a.2) ∧
    (∀ p ∈ VectorStore.search normalize s query_embedding k,
      p.1.deleted = false) ∧
    (s.index = [] → VectorStore.search normalize s query_embedding k = []) ∧
    (s.index.length = s.metadata_store.length → s.index.length ≤ k →
      List.Perm
        ((VectorStore.search normalize s query_embedding k).map Prod.fst)
        (s.metadata_store.filter (fun m => !m.deleted))) := by
  by_cases hz : s.index.length = 0
  · refine ⟨?_, ?_, ?_, ?_⟩
    · simp [VectorStore.search, hz]
    · simp [VectorStore.search, hz]
    · intro _; simp [VectorStore.search, hz]
    · intro hal _
      have hms : s.metadata_store = [] :=
        List.length_eq_zero.mp (hal ▸ hz)
      simp [VectorStore.search, hz, hms]
  · have hsearch : VectorStore.search normalize s query_embedding k
        = (faissTopK (s.index.map (fun v => dot v (normalize query_embedding)))
            (min k s.index.length)).filterMap (searchHit s.metadata_store) := by
      rw [VectorStore.search, if_neg hz]
    refine ⟨?_, ?_, ?_, ?_⟩
    · rw [hsearch, faissTopK]
      refine List.Pairwise.filterMap _ ?_
        (((sortDescBy_sorted Prod.snd _).sublist (List.take_sublist _ _)))
      intro a a' hle b hb b' hb'
      have h1 := searchHit_eq_some.mp hb
      have h2 := searchHit_eq_some.mp hb'
      rw [h1.2.2, h2.2.2]
      exact hle
    · intro p hp
      rw [hsearch] at hp
      obtain ⟨a, _, ha⟩ := List.mem_filterMap.mp hp
      exact (searchHit_eq_some.mp ha).2.1
    · intro h
      exact absurd (by rw [h]; rfl) hz
    · intro hal hk
      rw [hsearch, faissTopK, List.map_filterMap]
      have hfst : (fun p => (searchHit s.metadata_store p).map Prod.fst)
          = (fun p : Nat × ℚ => (s.metadata_store[p.1]?).bind
              (fun m => if m.deleted then none else some m)) :=
        funext (searchHit_map_fst s.metadata_store)
      rw [hfst]
      have hkmin : min k s.index.length = s.index.length :=
        Nat.min_eq_right hk
      rw [hkmin]
      have hlen : (sortDescBy Prod.snd
          ((s.index.map (fun v => dot v (normalize query_embedding))).enum)).length
          = s.index.length := by
        rw [sortDescBy_length, List.enum_length, List.length_map]
      rw [List.take_of_length_le (le_of_eq hlen)]
      refine List.Perm.trans
        (List.Perm.filterMap _ (sortDescBy_perm Prod.snd _)) ?_
      have henum : ((s.index.map (fun v => dot v (normalize query_embedding))).enum).filterMap
          (fun p : Nat × ℚ => (s.metadata_store[p.1]?).bind
            (fun m => if m.deleted then none else some m))
          = s.metadata_store.filterMap
              (fun m => if m.deleted then none else some m) := by
        have := filterMap_enumFrom_lookup
          (fun m => if m.deleted then none else some m)
          s.metadata_store
          (s.index.map (fun v => dot v (normalize query_embedding))) []
          (by rw [List.length_map]; exact hal)
        simpa using this
      rw [henum, filterMap_live]

/-- Corrected part of C1: with four stored entries of which the two
top-scoring ones are deleted, a request for `k = 3` results — strictly
more than the 2 live entries — returns only one live entry: the deleted
entries crowd the last live entry out of the FAISS top-`k` before the
deleted-filter runs. -/
theorem search_counterexample_live_crowded_out :
    ((VectorStore.mk [[1, 0], [1, 0], [0, 1], [0, -1]]
        [⟨"c0", "del", "f", 1, "t0", "u", true⟩,
         ⟨"c1", "del", "f", 2, "t1", "u", true⟩,
         ⟨"c2", "r", "g", 1, "t2", "u", false⟩,
         ⟨"c3", "r", "g", 2, "t3", "u", false⟩]).metadata_store.filter
      (fun m => !m.deleted)).length = 2 ∧
    2 < 3 ∧
    (VectorStore.search (fun v => v)
        (VectorStore.mk [[1, 0], [1, 0], [0, 1], [0, -1]]
          [⟨"c0", "del", "f", 1, "t0", "u", true⟩,
           ⟨"c1", "del", "f", 2, "t1", "u", true⟩,
           ⟨"c2", "r", "g", 1, "t2", "u", false⟩,
           ⟨"c3", "r", "g", 2, "t3", "u", false⟩]) [1, 0] 3).map Prod.fst
      = [⟨"c2", "r", "g", 1, "t2", "u", false⟩] ∧
    (⟨"c3", "r", "g", 2, "t3", "u", false⟩ : Metadata) ∉
      (VectorStore.search (fun v => v)
        (VectorStore.mk [[1, 0], [1, 0], [0, 1], [0, -1]]
          [⟨"c0", "del", "f", 1, "t0", "u", true⟩,
           ⟨"c1", "del", "f", 2, "t1", "u", true⟩,
           ⟨"c2", "r", "g", 1, "t2", "u", false⟩,
           ⟨"c3", "r", "g", 2, "t3", "u", false⟩]) [1, 0] 3).map Prod.fst := by
  have hs : VectorStore.search (fun v => v)
      (VectorStore.mk [[1, 0], [1, 0], [0, 1], [0, -1]]
        [⟨"c0", "del", "f", 1, "t0", "u", true⟩,
         ⟨"c1", "del", "f", 2, "t1", "u", true⟩,
         ⟨"c2", "r", "g", 1, "t2", "u", false⟩,
         ⟨"c3", "r", "g", 2, "t3", "u", false⟩]) [1, 0] 3
      = List.filterMap (searchHit
          [⟨"c0", "del", "f", 1, "t0", "u", true⟩,
           ⟨"c1", "del", "f", 2, "t1", "u", true⟩,
           ⟨"c2", "r", "g", 1, "t2", "u", false⟩,
           ⟨"c3", "r", "g", 2, "t3", "u", false⟩])
          [(0, 1), (1, 1), (2, 0)] := by
    simp only [VectorStore.search]
    rw [if_neg (by norm_num)]
    congr 1
    norm_num [faissTopK, sortDescBy, insKey, dot, List.enum, List.enumFrom]
  have h3 : List.filterMap (searchHit
      [⟨"c0", "del", "f", 1, "t0", "u", true⟩,
       ⟨"c1", "del", "f", 2, "t1", "u", true⟩,
       ⟨"c2", "r", "g", 1, "t2", "u", false⟩,
       ⟨"c3", "r", "g", 2, "t3", "u", false⟩])
      [(0, 1), (1, 1), (2, 0)]
      = [(⟨"c2", "r", "g", 1, "t2", "u", false⟩, (0 : ℚ))] := rfl
  have hmap : (VectorStore.search (fun v => v)
      (VectorStore.mk [[1, 0], [1, 0], [0, 1], [0, -1]]
        [⟨"c0", "del", "f", 1, "t0", "u", true⟩,
         ⟨"c1", "del", "f", 2, "t1", "u", true⟩,
         ⟨"c2", "r", "g", 1, "t2", "u", false⟩,
         ⟨"c3", "r", "g", 2, "t3", "u", false⟩]) [1, 0] 3).map Prod.fst
      = [⟨"c2", "r", "g", 1, "t2", "u", false⟩] := by
    rw [hs, h3]
    rfl
  refine ⟨by decide, by decide, hmap, ?_⟩
  rw [hmap]
  decide

/-- Witness for C1 at a concrete aligned store where `k` covers the
whole index: the two live entries are returned, ranked. -/
theorem search_ranked_live_witness :
    (VectorStore.mk [[1, 0], [0, 1], [0, -1]]
        [⟨"c0", "del", "f", 1, "t0", "u", true⟩,
         ⟨"c2", "r", "g", 1, "t2", "u", false⟩,
         ⟨"c3", "r", "g", 2, "t3", "u", false⟩]).index.length
      = (VectorStore.mk [[1, 0], [0, 1], [0, -1]]
          [⟨"c0", "del", "f", 1, "t0", "u", true⟩,
           ⟨"c2", "r", "g", 1, "t2", "u", false⟩,
           ⟨"c3", "r", "g", 2, "t3", "u", false⟩]).metadata_store.length ∧
    (VectorStore.mk [[1, 0], [0, 1], [0, -1]]
        [⟨"c0", "del", "f", 1, "t0", "u", true⟩,
         ⟨"c2", "r", "g", 1, "t2", "u", false⟩,
         ⟨"c3", "r", "g", 2, "t3", "u", false⟩]).index.length ≤ 5 ∧
    List.Perm
      ((VectorStore.search (fun v => v)
          (VectorStore.mk [[1, 0], [0, 1], [0, -1]]
            [⟨"c0", "del", "f", 1, "t0", "u", true⟩,
             ⟨"c2", "r", "g", 1, "t2", "u", false⟩,
             ⟨"c3", "r", "g", 2, "t3", "u", false⟩]) [1, 0] 5).map Prod.fst)
      ((VectorStore.mk [[1, 0], [0, 1], [0, -1]]
          [⟨"c0", "del", "f", 1, "t0", "u", true⟩,
           ⟨"c2", "r", "g", 1, "t2", "u", false⟩,
           ⟨"c3", "r", "g", 2, "t3", "u", false⟩]).metadata_store.filter
        (fun m => !m.deleted)) :=
  ⟨by decide, by decide,
   (search_ranked_live (fun v => v)
      (VectorStore.mk [[1, 0], [0, 1], [0, -1]]
        [⟨"c0", "del", "f", 1, "t0", "u", true⟩,
         ⟨"c2", "r", "g", 1, "t2", "u", false⟩,
         ⟨"c3", "r", "g", 2, "t3", "u", false⟩]) [1, 0] 5).2.2.2
     (by decide) (by decide)⟩

/-- Witness for C3: a singleton batch with raw score 5 — the model
contract holds, the batch is non-empty, and the reranked score is
exactly 1. -/
theorem rerank_minmax_normalization_witness :
    ((fun l : List (String × String) => l.map (fun _ => (5 : ℚ)))
        (([⟨"a", ⟨"c", "r", "f", 1, "a", "u", false⟩, 3, 0⟩] : List Doc).map
          (fun doc => ("q", doc.text))) = [5]) ∧
    ([⟨"a", ⟨"c", "r", "f", 1, "a", "u", false⟩, 3, 0⟩] : List Doc) ≠ [] ∧
    ([5] : List ℚ).length
      = ([⟨"a", ⟨"c", "r", "f", 1, "a", "u", false⟩, 3, 0⟩] : List Doc).length ∧
    (Reranker.rerank (fun l : List (String × String) => l.map (fun _ => (5 : ℚ)))
        "q" [⟨"a", ⟨"c", "r", "f", 1, "a", "u", false⟩, 3, 0⟩] 10
      = (sortDescBy Doc.rerank_score
          (Reranker.annotate [⟨"a", ⟨"c", "r", "f", 1, "a", "u", false⟩, 3, 0⟩]
            [5])).take 10 ∧
    (∀ i : Nat,
      ((Reranker.annotate [⟨"a", ⟨"c", "r", "f", 1, "a", "u", false⟩, 3, 0⟩]
          [5])[i]?).map Doc.rerank_score
        = (([5] : List ℚ)[i]?).map (fun sc =>
            if listMin [5] < listMax [5] then
              (sc - listMin [5]) / (listMax [5] - listMin [5])
            else if ([⟨"a", ⟨"c", "r", "f", 1, "a", "u", false⟩, 3, 0⟩]
                : List Doc).length = 1 then 1 else 1/2)) ∧
    (∀ d ∈ Reranker.rerank
        (fun l : List (String × String) => l.map (fun _ => (5 : ℚ)))
        "q" [⟨"a", ⟨"c", "r", "f", 1, "a", "u", false⟩, 3, 0⟩] 10,
        0 ≤ d.rerank_score ∧ d.rerank_score ≤ 1) ∧
    ((∀ x ∈ ([5] : List ℚ), ∀ y ∈ ([5] : List ℚ), x = y) →
      (([⟨"a", ⟨"c", "r", "f", 1, "a", "u", false⟩, 3, 0⟩] : List Doc).length = 1 →
        ∀ d ∈ Reranker.rerank
            (fun l : List (String × String) => l.map (fun _ => (5 : ℚ)))
            "q" [⟨"a", ⟨"c", "r", "f", 1, "a", "u", false⟩, 3, 0⟩] 10,
          d.rerank_score = 1) ∧
      (([⟨"a", ⟨"c", "r", "f", 1, "a", "u", false⟩, 3, 0⟩] : List Doc).length ≠ 1 →
        ∀ d ∈ Reranker.rerank
            (fun l : List (String × String) => l.map (fun _ => (5 : ℚ)))
            "q" [⟨"a", ⟨"c", "r", "f", 1, "a", "u", false⟩, 3, 0⟩] 10,
          d.rerank_score = 1/2)) ∧
    (Reranker.rerank (fun l : List (String × String) => l.map (fun _ => (5 : ℚ)))
        "q" [⟨"a", ⟨"c", "r", "f", 1, "a", "u", false⟩, 3, 0⟩] 10).Pairwise
      (fun a b => b.rerank_score ≤ a.rerank_score) ∧
    (∀ c, List.Sublist c
        (Reranker.annotate [⟨"a", ⟨"c", "r", "f", 1, "a", "u", false⟩, 3, 0⟩] [5]) →
      c.Pairwise (fun a b => b.rerank_score ≤ a.rerank_score) →
      List.Sublist c
        (sortDescBy Doc.rerank_score
          (Reranker.annotate [⟨"a", ⟨"c", "r", "f", 1, "a", "u", false⟩, 3, 0⟩]
            [5])))) :=
  ⟨by decide, by decide, by decide,
   rerank_minmax_normalization
     (fun l : List (String × String) => l.map (fun _ => (5 : ℚ))) "q"
     [⟨"a", ⟨"c", "r", "f", 1, "a", "u", false⟩, 3, 0⟩] 10 [5]
     (by decide) (by decide) (by decide)⟩

/-! ## Resource listing (claim C8) -/

/-- The bump step of the grouping dictionary keeps every summary's
`resource_id`. -/
theorem find?_addChunkSummary_self (acc : List ResourceSummary)
    (m : Metadata) :
    (addChunkSummary acc m).find? (fun r => r.resource_id == m.resource_id)
      = match acc.find? (fun r => r.resource_id == m.resource_id) with
        | some r => some { r with num_chunks := r.num_chunks + 1 }
        | none => some { resource_id := m.resource_id,
                         filename := m.file_name, num_chunks := 1,
                         uploaded_at := m.uploaded_at } := by
  rw [addChunkSummary]
  by_cases hany : acc.any (fun r => r.resource_id == m.resource_id) = true
  · rw [if_pos hany, List.find?_map]
    have hpred : ((fun r : ResourceSummary => r.resource_id == m.resource_id) ∘
        (fun r : ResourceSummary =>
          if r.resource_id == m.resource_id then
            { r with num_chunks := r.num_chunks + 1 } else r))
        = (fun r : ResourceSummary => r.resource_id == m.resource_id) := by
      funext r
      by_cases h : (r.resource_id == m.resource_id) = true
      · simp [Function.comp, h]
      · simp only [Bool.not_eq_true] at h
        simp [Function.comp, h]
    rw [hpred]
    cases hf : acc.find? (fun r => r.resource_id == m.resource_id) with
    | none =>
      exfalso
      rw [List.any_eq_true] at hany
      obtain ⟨r, hr, hpr⟩ := hany
      rw [List.find?_eq_none] at hf
      exact hf r hr hpr
    | some r =>
      have hpr := List.find?_some hf
      simp only [Option.map_some']
      rw [if_pos hpr]
  · rw [if_neg hany, List.find?_append]
    have haccnone : acc.find? (fun r => r.resource_id == m.resource_id)
        = none := by
      rw [List.find?_eq_none]
      intro r hr hpr
      exact hany (List.any_eq_true.mpr ⟨r, hr, hpr⟩)
    rw [haccnone]
    simp [List.find?_cons_of_pos]

/-- Adding a chunk of another resource does not change what the
dictionary holds for `resource_id`. -/
theorem find?_addChunkSummary_other (acc : List ResourceSummary)
    (m : Metadata) (resource_id : String)
    (h : (m.resource_id == resource_id) = false) :
    (addChunkSummary acc m).find? (fun r => r.resource_id == resource_id)
      = acc.find? (fun r => r.resource_id == resource_id) := by
  rw [addChunkSummary]
  by_cases hany : acc.any (fun r => r.resource_id == m.resource_id) = true
  · rw [if_pos hany, List.find?_map]
    have hpred : ((fun r : ResourceSummary => r.resource_id == resource_id) ∘
        (fun r : ResourceSummary =>
          if r.resource_id == m.resource_id then
            { r with num_chunks := r.num_chunks + 1 } else r))
        = (fun r : ResourceSummary => r.resource_id == resource_id) := by
      funext r
      by_cases h' : (r.resource_id == m.resource_id) = true
      · simp [Function.comp, h']
      · simp only [Bool.not_eq_true] at h'
        simp [Function.comp, h']
    rw [hpred]
    cases hf : acc.find? (fun r => r.resource_id == resource_id) with
    | none => rfl
    | some r =>
      have hpr := List.find?_some hf
      have hrr : r.resource_id = resource_id := beq_iff_eq.mp hpr
      have hne : (r.resource_id == m.resource_id) = false := by
        rw [hrr]
        rw [beq_eq_false_iff_ne] at h ⊢
        exact fun hcon => h hcon.symm
      simp only [Option.map_some']
      rw [if_neg (by rw [hne]; exact Bool.noConfusion)]
  · rw [if_neg hany, List.find?_append]
    have hnew : (([{ resource_id := m.resource_id, filename := m.file_name,
                     num_chunks := 1, uploaded_at := m.uploaded_at }] :
          List ResourceSummary).find?
        (fun r => r.resource_id == resource_id)) = none := by
      rw [List.find?_eq_none]
      intro r hr
      rw [List.mem_singleton] at hr
      subst hr
      simp only [h]
      exact Bool.noConfusion
    rw [hnew, Option.or_none]

/-- What the grouping loop records for one (non-empty) resource id:
starting from any partial dictionary, after consuming `ms` the entry
for `resource_id` has its live-chunk count added, and a fresh entry is
created from the first live chunk when the dictionary had none. -/
theorem gar_fold_find (resource_id : String) (hrid : resource_id ≠ "") :
    ∀ (ms : List Metadata) (acc : List ResourceSummary),
      (List.foldl (fun acc m =>
          if m.deleted || m.resource_id == "" then acc
          else addChunkSummary acc m) acc ms).find?
        (fun r => r.resource_id == resource_id)
      = match acc.find? (fun r => r.resource_id == resource_id) with
        | some r => some { r with num_chunks := r.num_chunks
            + (ms.filter
                (fun m => !m.deleted && m.resource_id == resource_id)).length }
        | none => ((ms.filter
            (fun m => !m.deleted && m.resource_id == resource_id)).head?).map
            (fun m => { resource_id := resource_id,
                        filename := m.file_name,
                        num_chunks := (ms.filter (fun m =>
                          !m.deleted && m.resource_id == resource_id)).length,
                        uploaded_at := m.uploaded_at }) := by
  intro ms
  induction ms with
  | nil =>
    intro acc
    rw [List.foldl_nil, List.filter_nil]
    cases hf : acc.find? (fun r => r.resource_id == resource_id) with
    | none => simp
    | some r => simp
  | cons m ms ih =>
    intro acc
    rw [List.foldl_cons]
    by_cases hskip : (m.deleted || m.resource_id == "") = true
    · rw [if_pos hskip]
      have hpm : (!m.deleted && m.resource_id == resource_id) = false := by
        rcases Bool.or_eq_true_iff.mp hskip with hd | he
        · simp [hd]
        · have hre : m.resource_id = "" := beq_iff_eq.mp he
          simp [hre, Ne.symm hrid]
      have hfil : List.filter
          (fun m => !m.deleted && m.resource_id == resource_id) (m :: ms)
          = List.filter
            (fun m => !m.deleted && m.resource_id == resource_id) ms := by
        rw [List.filter_cons, if_neg (by simp [hpm])]
      rw [hfil]
      exact ih acc
    · rw [if_neg hskip]
      have hlive : m.deleted = false :=
        ((by simpa using hskip) : m.deleted = false ∧ ¬m.resource_id = "").1
      by_cases hr : (m.resource_id == resource_id) = true
      · have hpm : (!m.deleted && m.resource_id == resource_id) = true := by
          simp [hlive, hr]
        have hfil : List.filter
            (fun m => !m.deleted && m.resource_id == resource_id) (m :: ms)
            = m :: List.filter
              (fun m => !m.deleted && m.resource_id == resource_id) ms := by
          rw [List.filter_cons, if_pos hpm]
        rw [hfil]
        rw [ih (addChunkSummary acc m)]
        have hself := find?_addChunkSummary_self acc m
        have hrr : m.resource_id = resource_id := beq_iff_eq.mp hr
        rw [hrr] at hself
        rw [hself]
        cases hf : acc.find? (fun r => r.resource_id == resource_id) with
        | none =>
          simp only [List.head?_cons, List.length_cons, Option.map_some']
          rw [Nat.add_comm 1]
        | some r =>
          simp only [List.length_cons]
          rw [Nat.add_assoc, Nat.add_comm 1]
      · have hpm : (!m.deleted && m.resource_id == resource_id) = false := by
          simp only [Bool.not_eq_true] at hr
          simp [hr]
        have hfil : List.filter
            (fun m => !m.deleted && m.resource_id == resource_id) (m :: ms)
            = List.filter
              (fun m => !m.deleted && m.resource_id == resource_id) ms := by
          rw [List.filter_cons, if_neg (by simp [hpm])]
        rw [hfil]
        rw [ih (addChunkSummary acc m),
          find?_addChunkSummary_other acc m resource_id (by simpa using hr)]

/-- The grouping loop never duplicates a resource id. -/
theorem gar_fold_nodup :
    ∀ (ms : List Metadata) (acc : List ResourceSummary),
      ((acc.map (fun r => r.resource_id)).Nodup) →
      (((List.foldl (fun acc m =>
          if m.deleted || m.resource_id == "" then acc
          else addChunkSummary acc m) acc ms).map
        (fun r => r.resource_id)).Nodup) := by
  intro ms
  induction ms with
  | nil => intro acc h; exact h
  | cons m ms ih =>
    intro acc h
    rw [List.foldl_cons]
    by_cases hskip : (m.deleted || m.resource_id == "") = true
    · rw [if_pos hskip]; exact ih acc h
    · rw [if_neg hskip]
      refine ih _ ?_
      rw [addChunkSummary]
      by_cases hany : acc.any (fun r => r.resource_id == m.resource_id) = true
      · rw [if_pos hany]
        have : ((acc.map (fun r =>
            if r.resource_id == m.resource_id then
              { r with num_chunks := r.num_chunks + 1 } else r)).map
            (fun r => r.resource_id))
            = acc.map (fun r => r.resource_id) := by
          rw [List.map_map]
          refine List.map_congr_left ?_
          intro r _
          by_cases h' : (r.resource_id == m.resource_id) = true
          · simp [Function.comp, h']
          · simp only [Bool.not_eq_true] at h'
            simp [Function.comp, h']
        rw [this]
        exact h
      · rw [if_neg hany, List.map_append]
        rw [List.nodup_append]
        refine ⟨h, by simp, ?_⟩
        intro x hx
        simp only [List.map_cons, List.map_nil, List.mem_singleton]
        intro hxm
        obtain ⟨r, hr, hrx⟩ := List.mem_map.mp hx
        apply hany
        rw [List.any_eq_true]
        exact ⟨r, hr, by rw [hrx, hxm]; exact beq_self_eq_true _⟩

/-- The grouping loop only records non-empty resource ids. -/
theorem gar_fold_rid_ne :
    ∀ (ms : List Metadata) (acc : List ResourceSummary),
      (∀ r ∈ acc, r.resource_id ≠ "") →
      ∀ r ∈ List.foldl (fun acc m =>
          if m.deleted || m.resource_id == "" then acc
          else addChunkSummary acc m) acc ms,
        r.resource_id ≠ "" := by
  intro ms
  induction ms with
  | nil => intro acc h; exact h
  | cons m ms ih =>
    intro acc h
    rw [List.foldl_cons]
    by_cases hskip : (m.deleted || m.resource_id == "") = true
    · rw [if_pos hskip]; exact ih acc h
    · rw [if_neg hskip]
      refine ih _ ?_
      intro r hr
      rw [addChunkSummary] at hr
      have hrid : m.resource_id ≠ "" :=
        ((by simpa using hskip) : m.deleted = false ∧ ¬m.resource_id = "").2
      by_cases hany : acc.any (fun r => r.resource_id == m.resource_id) = true
      · rw [if_pos hany] at hr
        obtain ⟨r', hr', hrr⟩ := List.mem_map.mp hr
        by_cases h' : (r'.resource_id == m.resource_id) = true
        · rw [← hrr]
          simpa [h'] using h r' hr'
        · simp only [Bool.not_eq_true] at h'
          rw [← hrr]
          simpa [h'] using h r' hr'
      · rw [if_neg hany] at hr
        rcases List.mem_append.mp hr with hr | hr
        · exact h r hr
        · rw [List.mem_singleton] at hr
          subst hr
          exact hrid

/-- C8 (amended): `listResources` yields exactly one summary per
non-empty `resource_id` that has at least one live chunk; the summary
counts that resource's live chunks and carries the `filename` and
`uploaded_at` of its *first* live chunk in storage order (not the
earliest `uploaded_at`; see the counterexample); entries with an empty
resource id are skipped. -/
theorem get_all_resources_characterization (s : VectorStore) :
    ((VectorStore.get_all_resources s).map (fun r => r.resource_id)).Nodup ∧
    (∀ r ∈ VectorStore.get_all_resources s, r.resource_id ≠ "") ∧
    (∀ resource_id : String, resource_id ≠ "" →
      (VectorStore.get_all_resources s).find?
          (fun r => r.resource_id == resource_id)
        = ((VectorStore.liveChunksOf s resource_id).head?).map
            (fun m => { resource_id := resource_id,
                        filename := m.file_name,
                        num_chunks :=
                          (VectorStore.liveChunksOf s resource_id).length,
                        uploaded_at := m.uploaded_at })) := by
  refine ⟨gar_fold_nodup s.metadata_store [] (by simp),
    gar_fold_rid_ne s.metadata_store [] (by simp), ?_⟩
  intro resource_id hrid
  have h := gar_fold_find resource_id hrid s.metadata_store []
  simpa [VectorStore.get_all_resources, VectorStore.liveChunksOf] using h

/-- Corrected part of C8: with two live chunks of resource `"r"` whose
upload timestamps are out of storage order, the summary reports the
first chunk's `"2024-02"` although the earliest live `uploaded_at` is
`"2024-01"`. -/
theorem get_all_resources_counterexample :
    VectorStore.get_all_resources
        (VectorStore.mk []
          [⟨"c1", "r", "a.pdf", 1, "t1", "2024-02", false⟩,
           ⟨"c2", "r", "a.pdf", 2, "t2", "2024-01", false⟩])
      = [⟨"r", "a.pdf", 2, "2024-02"⟩] ∧
    specEarliestUpload
        (VectorStore.mk []
          [⟨"c1", "r", "a.pdf", 1, "t1", "2024-02", false⟩,
           ⟨"c2", "r", "a.pdf", 2, "t2", "2024-01", false⟩]) "r"
      = some "2024-01" ∧
    ("2024-01" : String) ≠ "2024-02" := by
  refine ⟨by decide, ?_, by decide⟩
  have h : VectorStore.liveChunksOf
      (VectorStore.mk []
        [⟨"c1", "r", "a.pdf", 1, "t1", "2024-02", false⟩,
         ⟨"c2", "r", "a.pdf", 2, "t2", "2024-01", false⟩]) "r"
      = [⟨"c1", "r", "a.pdf", 1, "t1", "2024-02", false⟩,
         ⟨"c2", "r", "a.pdf", 2, "t2", "2024-01", false⟩] := by decide
  rw [specEarliestUpload, h]
  simp only [List.map_cons, List.map_nil, List.foldl_cons, List.foldl_nil]
  rw [show strMinLex "2024-02" "2024-01" = "2024-01" from by
    rw [strMinLex, if_neg (by decide)]]

/-- Witness for C8 at a two-resource store (one of them soft-deleted):
the live resource `"r"` gets exactly its own summary. -/
theorem get_all_resources_characterization_witness :
    ("r" : String) ≠ "" ∧
    (VectorStore.get_all_resources
        (VectorStore.mk []
          [⟨"c0", "gone", "b.pdf", 1, "t0", "2024-01", true⟩,
           ⟨"c1", "r", "a.pdf", 1, "t1", "2024-02", false⟩,
           ⟨"c2", "r", "a.pdf", 2, "t2", "2024-03", false⟩])).find?
        (fun r => r.resource_id == "r")
      = ((VectorStore.liveChunksOf
          (VectorStore.mk []
            [⟨"c0", "gone", "b.pdf", 1, "t0", "2024-01", true⟩,
             ⟨"c1", "r", "a.pdf", 1, "t1", "2024-02", false⟩,
             ⟨"c2", "r", "a.pdf", 2, "t2", "2024-03", false⟩]) "r").head?).map
          (fun m => { resource_id := "r",
                      filename := m.file_name,
                      num_chunks := (VectorStore.liveChunksOf
                        (VectorStore.mk []
                          [⟨"c0", "gone", "b.pdf", 1, "t0", "2024-01", true⟩,
                           ⟨"c1", "r", "a.pdf", 1, "t1", "2024-02", false⟩,
                           ⟨"c2", "r", "a.pdf", 2, "t2", "2024-03", false⟩])
                        "r").length,
                      uploaded_at := m.uploaded_at }) :=
  ⟨by decide,
   (get_all_resources_characterization
      (VectorStore.mk []
        [⟨"c0", "gone", "b.pdf", 1, "t0", "2024-01", true⟩,
         ⟨"c1", "r", "a.pdf", 1, "t1", "2024-02", false⟩,
         ⟨"c2", "r", "a.pdf", 2, "t2", "2024-03", false⟩])).2.2 "r" (by decide)⟩

end Searchmind
